import Mathlib

/-!
Shallow embedding of the easy-fs storage engine
(`src/easy-fs/src/{block_cache,bitmap,efs,vfs}.rs`) and proofs about it.

Machine integers are modelled as `Nat` with explicit bounds where overflow
could matter.  Fallible / panicking code returns `Option`.  Device traffic
and cache-entry `modify` calls are reified as explicit event lists so that
frame conditions ("no other block is touched") are statable.
-/

namespace EasyFS

/-! ## Block cache (`block_cache.rs`)

The 512-byte buffer content is opaque at this layer: the cache manager never
inspects it, it only loads it from the device and writes it back.  We model a
buffer as a single `Nat` token. -/

/-- Opaque content of one 512-byte block buffer. -/
abbrev Buf := Nat

/-- One traffic event on the underlying block device. -/
inductive DevEvent where
  | read (block_id : Nat)
  | write (block_id : Nat) (buf : Buf)
deriving DecidableEq, Repr

/-- `BlockCache` from `block_cache.rs`: buffer, block id, dirty flag
(`modified`).  The `block_device` reference is passed explicitly where
needed. -/
structure BlockCache where
  cache : Buf
  block_id : Nat
  modified : Bool
deriving DecidableEq, Repr

/-- `BlockCache::new`: read the block from the device; `modified = false`.
Returns the constructed cache together with the device traffic it caused. -/
def BlockCache.new (block_id : Nat) (device : Nat → Buf) :
    BlockCache × List DevEvent :=
  (⟨device block_id, block_id, false⟩, [DevEvent.read block_id])

/-- `BlockCache::sync`: if the dirty flag is set, clear it and write the
buffer back to the device; otherwise do nothing. -/
def BlockCache.sync (c : BlockCache) : BlockCache × List DevEvent :=
  if c.modified then
    ({ c with modified := false }, [DevEvent.write c.block_id c.cache])
  else
    (c, [])

/-- `BlockCache::modify` (via `get_mut`): unconditionally set the dirty flag
and update the buffer with the caller's closure. -/
def BlockCache.modify (c : BlockCache) (f : Buf → Buf) : BlockCache :=
  { c with cache := f c.cache, modified := true }

/-- `BLOCK_CACHE_SIZE` from `block_cache.rs`. -/
def BLOCK_CACHE_SIZE : Nat := 16

/-- One `(block_id, Arc<Mutex<BlockCache>>)` pair held by the manager.
`strong_count` is the `Arc::strong_count` of the shared entry; the manager
itself accounts for one reference, so `strong_count = 1` means no caller
holds a handle. -/
structure Entry where
  block_id : Nat
  strong_count : Nat
  cache : BlockCache
deriving DecidableEq, Repr

instance : Inhabited Entry := ⟨⟨0, 0, ⟨0, 0, false⟩⟩⟩

/-- `BlockCacheManager`: the bounded queue of cached entries. -/
structure BlockCacheManager where
  queue : List Entry
deriving DecidableEq, Repr

/-- The front-to-back scan of `get_block_cache`'s eviction:
`queue.iter().enumerate().find(|(_, pair)| Arc::strong_count(&pair.1) == 1)`
followed by `drain(idx..=idx)`.  Returns the removed entry and the remaining
queue, or `none` when every entry's reference count differs from one. -/
def evictFirstFree : List Entry → Option (Entry × List Entry)
  | [] => none
  | e :: es =>
    if e.strong_count = 1 then some (e, es)
    else (evictFirstFree es).map (fun p => (p.1, e :: p.2))

/-- The hit scan of `get_block_cache`:
`queue.iter().find(|pair| pair.0 == block_id)` followed by
`Arc::clone(&pair.1)`.  Returns the queue with the matched entry's reference
count bumped by the clone together with the returned handle, or `none` when
no entry has the requested block id. -/
def hitBump : List Entry → Nat → Option (List Entry × Entry)
  | [], _ => none
  | e :: es, id =>
    if e.block_id = id then
      some ({ e with strong_count := e.strong_count + 1 } :: es,
            { e with strong_count := e.strong_count + 1 })
    else
      (hitBump es id).map (fun p => (e :: p.1, p.2))

/-- `BlockCacheManager::get_block_cache`.  `none` models the
`panic!("Run out of BlockCache!")` path.  On success it returns the new
manager state, the returned shared handle (with its updated reference
count), and the device traffic of the call (the evicted entry's destructor
flush, if any, followed by the load of the requested block). -/
def BlockCacheManager.get_block_cache (mgr : BlockCacheManager)
    (block_id : Nat) (device : Nat → Buf) :
    Option (BlockCacheManager × Entry × List DevEvent) :=
  match hitBump mgr.queue block_id with
  | some (q, e) =>
    -- hit: clone the Arc (reference count goes up by one), no device traffic
    some (⟨q⟩, e, [])
  | none =>
    let step : Option (Option Entry × List Entry) :=
      if mgr.queue.length = BLOCK_CACHE_SIZE then
        (evictFirstFree mgr.queue).map (fun p => (some p.1, p.2))
      else
        some (none, mgr.queue)
    match step with
    | none => none
    | some (victim, rest) =>
      let dropEvents : List DevEvent :=
        match victim with
        | some v => (v.cache.sync).2
        | none => []
      let loaded := BlockCache.new block_id device
      -- one Arc in the queue plus the one returned to the caller
      let newEntry : Entry := ⟨block_id, 2, loaded.1⟩
      some (⟨rest ++ [newEntry]⟩, newEntry, dropEvents ++ loaded.2)

/-- A manager state in which all 16 slots are occupied and every entry is
held by some caller (`Arc::strong_count ≥ 2`), one of the entries being
block 3. -/
def mgrFullHeld : BlockCacheManager :=
  ⟨(List.range BLOCK_CACHE_SIZE).map (fun i => ⟨i, 2, ⟨0, i, false⟩⟩)⟩

/-! ## Bitmap allocator (`bitmap.rs`)

A bitmap block is `[u64; 64]`, modelled as a list of 64 words, each a `Nat`
below `2 ^ 64`.  The bitmap region on the device is the list of its bitmap
blocks, in block-index order starting at `start_block_id`.  Each
`get_block_cache(..).modify(..)` call is reified as the *relative* index of
the bitmap block it touches, so that the modify footprint of `alloc` and
`dealloc` is visible. -/

/-- `BLOCK_SZ` from `lib.rs`: 512 bytes per block. -/
def BLOCK_SZ : Nat := 512

/-- `BLOCK_BITS = BLOCK_SZ * 8` from `bitmap.rs`. -/
def BLOCK_BITS : Nat := BLOCK_SZ * 8

/-- `u64::MAX`. -/
def U64_MAX : Nat := 2 ^ 64 - 1

/-- `u64::trailing_ones`, fuel-bounded by the word width: counts the
consecutive set low bits. -/
def trailingOnesAux : Nat → Nat → Nat
  | 0, _ => 0
  | fuel + 1, w => if w % 2 = 1 then trailingOnesAux fuel (w / 2) + 1 else 0

/-- `w.trailing_ones()` for a `u64` value `w`. -/
def u64_trailing_ones (w : Nat) : Nat := trailingOnesAux 64 w

/-- The scan `bitmap_block.iter().enumerate().find(|(_, bits64)|
**bits64 != u64::MAX)` inside `Bitmap::alloc`: index and value of the first
word that is not all-ones. -/
def findFreeWord : List Nat → Option (Nat × Nat)
  | [] => none
  | w :: ws =>
    if w ≠ U64_MAX then some (0, w)
    else (findFreeWord ws).map (fun p => (p.1 + 1, p.2))

/-- The body of the `modify` closure in `Bitmap::alloc` acting on one
bitmap block: find the first non-full word, set its lowest clear bit
(`trailing_ones`), and return the in-block bit position
`bits64_pos * 64 + inner_pos`; `none` when every word is all-ones. -/
def blockAlloc (b : List Nat) : Option (List Nat × Nat) :=
  match findFreeWord b with
  | none => none
  | some (i, w) =>
    let inner := u64_trailing_ones w
    some (b.set i (w ||| (1 <<< inner)), i * 64 + inner)

/-- The `for block_id in 0..self.blocks` loop of `Bitmap::alloc`, with `i`
the relative index of the current block.  Returns the allocation result,
the updated region contents, and the relative indices of the blocks on
which a cache `modify` was performed (the loop calls `modify` on every
block it scans, whether or not the closure changes it). -/
def allocLoop : List (List Nat) → Nat → Option Nat × List (List Nat) × List Nat
  | [], _ => (none, [], [])
  | b :: rest, i =>
    match blockAlloc b with
    | some (b2, pos) => (some (i * BLOCK_BITS + pos), b2 :: rest, [i])
    | none =>
      ((allocLoop rest (i + 1)).1, b :: (allocLoop rest (i + 1)).2.1,
        i :: (allocLoop rest (i + 1)).2.2)

/-- `Bitmap::alloc`, acting on the region contents `disk`
(`disk.length = self.blocks`). -/
def bitmapAlloc (disk : List (List Nat)) :
    Option Nat × List (List Nat) × List Nat :=
  allocLoop disk 0

/-- `decomposition` from `bitmap.rs`:
`(bit / BLOCK_BITS, bit % BLOCK_BITS / 64, bit % BLOCK_BITS % 64)`. -/
def decomposition (bit : Nat) : Nat × Nat × Nat :=
  (bit / BLOCK_BITS, bit % BLOCK_BITS / 64, bit % BLOCK_BITS % 64)

/-- `Bitmap::dealloc`: one `modify` on the block holding the bit; the
closure asserts the bit is set (`none` models the failed assertion) and
subtracts `1 << inner_pos`.  Second component: the relative indices of the
blocks on which `modify` was performed. -/
def bitmapDealloc (disk : List (List Nat)) (bit : Nat) :
    Option (List (List Nat)) × List Nat :=
  let d := decomposition bit
  let blk := disk.getD d.1 []
  let w := blk.getD d.2.1 0
  (if 0 < w &&& (1 <<< d.2.2) then
      some (disk.set d.1 (blk.set d.2.1 (w - 1 <<< d.2.2)))
    else none,
    [d.1])

/-- Bit `i` of one bitmap block (64 words of 64 bits). -/
def blkTestBit (b : List Nat) (i : Nat) : Bool :=
  (b.getD (i / 64) 0).testBit (i % 64)

/-- Bit `i` of the whole bitmap region. -/
def diskTestBit (disk : List (List Nat)) (i : Nat) : Bool :=
  blkTestBit (disk.getD (i / BLOCK_BITS) []) (i % BLOCK_BITS)

/-- Well-formed bitmap block: exactly 64 words, each a `u64` value. -/
def wfBlock (b : List Nat) : Prop :=
  b.length = 64 ∧ ∀ w ∈ b, w < 2 ^ 64

/-- Well-formed bitmap region contents. -/
def wfDisk (disk : List (List Nat)) : Prop := ∀ b ∈ disk, wfBlock b

instance (b : List Nat) : Decidable (wfBlock b) := by
  unfold wfBlock; infer_instance

instance (disk : List (List Nat)) : Decidable (wfDisk disk) := by
  unfold wfDisk; infer_instance

/-! ## Filesystem layout (`efs.rs`) -/

/-- Modelled from the spec: `layout.rs` (holding `DiskInode`) is not among
the provided sources; per §6 a disk inode is 32 × u32 = 128 bytes. -/
def DISKINODE_SZ : Nat := 128

/-- Modelled from the spec: the superblock of `layout.rs` is not among the
provided sources; per §6 it holds `magic, total_blocks, NB_ib, NB_ia,
NB_db, NB_da`, all little-endian u32. -/
structure SuperBlock where
  magic : Nat
  total_blocks : Nat
  inode_bitmap_blocks : Nat
  inode_area_blocks : Nat
  data_bitmap_blocks : Nat
  data_area_blocks : Nat
deriving DecidableEq, Repr

/-- Modelled from the spec: `magic = 0x3b800001` (§6). -/
def EFS_MAGIC : Nat := 0x3b800001

/-- Modelled from the spec: `SuperBlock::initialize` stores the magic and
the five region sizes. -/
def SuperBlock.initialize (total_blocks inode_bitmap_blocks
    inode_area_blocks data_bitmap_blocks data_area_blocks : Nat) :
    SuperBlock :=
  ⟨EFS_MAGIC, total_blocks, inode_bitmap_blocks, inode_area_blocks,
    data_bitmap_blocks, data_area_blocks⟩

/-- Modelled from the spec: `is_valid ⇔ magic == M` (§3). -/
def SuperBlock.is_valid (sb : SuperBlock) : Bool := sb.magic == EFS_MAGIC

/-- The `(start_block_id, blocks)` pair a `Bitmap::new` call stores. -/
structure BitmapParams where
  start_block_id : Nat
  blocks : Nat
deriving DecidableEq, Repr

/-- `Bitmap::maximum`: `blocks * BLOCK_BITS`. -/
def BitmapParams.maximum (bm : BitmapParams) : Nat := bm.blocks * BLOCK_BITS

/-- The layout fields of `EasyFileSystem`. -/
structure EfsParams where
  inode_bitmap : BitmapParams
  data_bitmap : BitmapParams
  inode_area_start_block : Nat
  data_area_start_block : Nat
deriving DecidableEq, Repr

/-- The layout arithmetic of `EasyFileSystem::create`: the in-memory
filesystem object it builds and the superblock it writes to block 0.
(The block-zeroing pass and root-inode allocation act on block contents and
are not part of the layout computation.) -/
def EasyFileSystem.create (total_blocks inode_bitmap_blocks : Nat) :
    EfsParams × SuperBlock :=
  let inode_bitmap : BitmapParams := ⟨1, inode_bitmap_blocks⟩
  let inode_num := inode_bitmap.maximum
  let inode_area_blocks :=
    (inode_num * DISKINODE_SZ + BLOCK_SZ - 1) / BLOCK_SZ
  let inode_total_blocks := inode_bitmap_blocks + inode_area_blocks
  let data_total_blocks := total_blocks - 1 - inode_total_blocks
  let data_bitmap_blocks := (data_total_blocks + 4096) / 4097
  let data_area_blocks := data_total_blocks - data_bitmap_blocks
  let data_bitmap : BitmapParams :=
    ⟨1 + inode_bitmap_blocks + inode_area_blocks, data_bitmap_blocks⟩
  (⟨inode_bitmap, data_bitmap, 1 + inode_bitmap_blocks,
      1 + inode_total_blocks + data_bitmap_blocks⟩,
    SuperBlock.initialize total_blocks inode_bitmap_blocks
      inode_area_blocks data_bitmap_blocks data_area_blocks)

/-- `EasyFileSystem::open`: validate the superblock's magic (`none` models
the `assert!(super_block.is_valid())` panic) and rebuild the layout fields
from the stored sizes. -/
def EasyFileSystem.open (sb : SuperBlock) : Option EfsParams :=
  if sb.is_valid then
    let inode_total_blocks := sb.inode_bitmap_blocks + sb.inode_area_blocks
    some ⟨⟨1, sb.inode_bitmap_blocks⟩,
          ⟨1 + inode_total_blocks, sb.data_bitmap_blocks⟩,
          1 + sb.inode_bitmap_blocks,
          1 + inode_total_blocks + sb.data_bitmap_blocks⟩
  else none

/-! ## Directory / vnode layer (`vfs.rs`)

`vfs.rs` manipulates a directory through `DiskInode::read_at/write_at`
at dirent granularity.  `layout.rs` (holding `DiskInode` and `DirEntry`)
is not among the provided sources, so those operations are modelled from
the spec at that granularity: the directory's dirent slots are a list, and
slot `i` lives at byte offset `i * DIRENT_SZ`. -/

/-- `DIRENT_SZ` — Modelled from the spec: a dirent is 32 bytes (§3, §6). -/
def DIRENT_SZ : Nat := 32

/-- Modelled from the spec: a dirent pairs a null-padded name of at most
27 bytes with a u32 inode number; inode number 0 denotes an empty slot.
The name is abstracted as the string `DirEntry::name()` returns. -/
structure DirEntry where
  name : String
  inode_number : Nat
deriving DecidableEq, Repr

/-- `DirEntry::empty()`. -/
def DirEntry.empty : DirEntry := ⟨"", 0⟩

/-- Modelled from the spec: the directory's disk inode at dirent
granularity — its `size` field in bytes, the dirent slots stored in its
data area, and the data block ids recorded in its direct/indirect tables
(in logical order). -/
structure DirInode where
  size : Nat
  dirents : List DirEntry
  blocks : List Nat
deriving DecidableEq, Repr

/-- `DiskInode::initialize` for the root directory: `size = 0`, all block
pointers zeroed (modelled from the spec §4.4). -/
def DiskInode.initializeDir : DirInode := ⟨0, [], []⟩

/-- The dirents the `vfs.rs` loops can reach: slots
`0 .. size / DIRENT_SZ`. -/
def DirInode.entries (d : DirInode) : List DirEntry :=
  d.dirents.take (d.size / DIRENT_SZ)

/-- Modelled from the spec: `read_at (DIRENT_SZ * i)` of one dirent. -/
def DirInode.readDirent (d : DirInode) (i : Nat) : DirEntry :=
  d.dirents.getD i DirEntry.empty

/-- Modelled from the spec: `write_at (DIRENT_SZ * i)` of one dirent
(the callers first grow `size` past the written slot; writing the slot
just past the stored list appends). -/
def writeDirentAt (l : List DirEntry) (i : Nat) (e : DirEntry) :
    List DirEntry :=
  if i < l.length then l.set i e else l ++ [e]

/-- `DiskInode::total_blocks` — Modelled from the spec (§4.4): payload
blocks plus indirect blocks for a given byte size, with `D = 28` direct
slots and `IPB1 = 128` ids per indirect block. -/
def DiskInode.total_blocks (size : Nat) : Nat :=
  let db := (size + BLOCK_SZ - 1) / BLOCK_SZ
  db + (if 28 < db then 1 else 0) +
    (if 28 + 128 < db then 1 + (db - 28 - 128 + 127) / 128 else 0)

/-- `DiskInode::blocks_num_needed` — Modelled from the spec: additional
blocks needed to grow from `size` to `new_size`. -/
def DiskInode.blocks_num_needed (size new_size : Nat) : Nat :=
  DiskInode.total_blocks new_size - DiskInode.total_blocks size

/-- The filesystem state the directory operations act on: the directory's
disk inode, the inode bitmap (slot `k` = inode `k` allocated), and a
fresh-id counter abstracting `data_bitmap.alloc() + data_area_start_block`
(the identity of freshly allocated data blocks is irrelevant to the
theorems below; their allocation events are what matters). -/
structure FsState where
  dir : DirInode
  inodeBitmap : List Bool
  nextData : Nat
deriving DecidableEq, Repr

/-- Allocation / deallocation traffic of one directory operation. -/
inductive FsEvent where
  | allocInode (inode_id : Nat)
  | allocData (block_id : Nat)
  | deallocData (block_id : Nat)
deriving DecidableEq, Repr

/-- `EasyFileSystem::alloc_inode` = `inode_bitmap.alloc(..)`: the lowest
clear bit is set and returned (that `Bitmap::alloc` returns the lowest
clear bit is proved in the bitmap section); `none` models the `.unwrap()`
panic when every inode is allocated. -/
def allocInode : List Bool → Option (Nat × List Bool)
  | [] => none
  | b :: bs =>
    if b then (allocInode bs).map (fun p => (p.1 + 1, b :: p.2))
    else some (0, true :: bs)

/-- `Inode::increase_size` together with its `fs.alloc_data()` calls:
no-op when `new_size < size`; otherwise allocate `blocks_num_needed` fresh
data blocks, splice them into the inode's tables, and set
`size := new_size`. -/
def increaseSize (new_size : Nat) (d : DirInode) (nextData : Nat) :
    DirInode × Nat × List FsEvent :=
  if new_size < d.size then (d, nextData, [])
  else
    ({ d with
        size := new_size
        blocks := d.blocks ++
          (List.range (DiskInode.blocks_num_needed d.size new_size)).map
            (fun k => nextData + k) },
      nextData + DiskInode.blocks_num_needed d.size new_size,
      ((List.range (DiskInode.blocks_num_needed d.size new_size)).map
          (fun k => nextData + k)).map FsEvent.allocData)

/-- `Inode::decrease_size` (via `DiskInode::decrease_size` and the
`fs.dealloc_data` loop): no-op when `new_size > size`; otherwise truncate
to `new_size` and deallocate the data blocks beyond
`total_blocks new_size`. -/
def decreaseSize (new_size : Nat) (d : DirInode) :
    DirInode × List FsEvent :=
  if d.size < new_size then (d, [])
  else
    ({ d with
        size := new_size
        blocks := d.blocks.take (DiskInode.total_blocks new_size) },
      (d.blocks.drop (DiskInode.total_blocks new_size)).map
        FsEvent.deallocData)

/-- `Inode::find_inode_id`: the first dirent within `size` whose inode
number is non-zero **and** whose name matches. -/
def find_inode_id (name : String) (d : DirInode) : Option Nat :=
  (d.entries.find? (fun e => e.inode_number != 0 && e.name == name)).map
    (fun e => e.inode_number)

/-- The scan order of `Inode::unlinkat`: index of the first dirent whose
name matches, regardless of its inode number. -/
def findNameIdx (name : String) : List DirEntry → Option Nat
  | [] => none
  | e :: es =>
    if e.name == name then some 0
    else (findNameIdx name es).map (fun i => i + 1)

/-- `Inode::create`: the inner `none` is the early return when the name
already resolves; the outer `none` models the `alloc_inode().unwrap()`
panic.  On success: the new inode id, the new state, and the allocation
events. -/
def createFile (name : String) (st : FsState) :
    Option (Option Nat × FsState × List FsEvent) :=
  if (find_inode_id name st.dir).isSome then some (none, st, [])
  else
    match allocInode st.inodeBitmap with
    | none => none
    | some (new_inode_id, bitmap2) =>
      let file_count := st.dir.size / DIRENT_SZ
      let grown := increaseSize ((file_count + 1) * DIRENT_SZ) st.dir
        st.nextData
      some (some new_inode_id,
        ⟨{ grown.1 with
            dirents := writeDirentAt grown.1.dirents file_count
              ⟨name, new_inode_id⟩ },
          bitmap2, grown.2.1⟩,
        FsEvent.allocInode new_inode_id :: grown.2.2)

/-- `Inode::linkat`. -/
def linkat (oldpath newpath : String) (st : FsState) :
    Int × FsState × List FsEvent :=
  match find_inode_id oldpath st.dir with
  | none => (-1, st, [])
  | some inode_id =>
    let file_count := st.dir.size / DIRENT_SZ
    let grown := increaseSize ((file_count + 1) * DIRENT_SZ) st.dir
      st.nextData
    (0,
      ⟨{ grown.1 with
          dirents := writeDirentAt grown.1.dirents file_count
            ⟨newpath, inode_id⟩ },
        st.inodeBitmap, grown.2.1⟩,
      grown.2.2)

/-- `Inode::unlinkat`: scan slots `0 .. size / DIRENT_SZ` for the first
dirent whose name equals `name`; on a match overwrite it with the dirent
in the last slot and shrink by one slot; `-1` when absent. -/
def unlinkat (name : String) (st : FsState) :
    Int × FsState × List FsEvent :=
  match findNameIdx name st.dir.entries with
  | none => (-1, st, [])
  | some i =>
    let file_count := st.dir.size / DIRENT_SZ
    let shrunk := decreaseSize ((file_count - 1) * DIRENT_SZ)
      { st.dir with
        dirents := writeDirentAt st.dir.dirents i
          (st.dir.readDirent (file_count - 1)) }
    (0, ⟨shrunk.1, st.inodeBitmap, st.nextData⟩, shrunk.2)

/-! ## Lemmas about the block cache -/

theorem hitBump_eq_none_iff (l : List Entry) (id : Nat) :
    hitBump l id = none ↔ ∀ e ∈ l, e.block_id ≠ id := by
  induction l with
  | nil => simp [hitBump]
  | cons e es ih =>
    by_cases h : e.block_id = id
    · simp [hitBump, h]
    · simp only [hitBump, if_neg h, Option.map_eq_none', ih, List.mem_cons]
      constructor
      · rintro hall x (rfl | hx)
        · exact h
        · exact hall x hx
      · intro hall x hx
        exact hall x (Or.inr hx)

theorem hitBump_append (pre : List Entry) (x : Entry) (post : List Entry)
    (id : Nat) (hpre : ∀ y ∈ pre, y.block_id ≠ id) (hx : x.block_id = id) :
    hitBump (pre ++ x :: post) id =
      some (pre ++ { x with strong_count := x.strong_count + 1 } :: post,
            { x with strong_count := x.strong_count + 1 }) := by
  induction pre with
  | nil => simp [hitBump, hx]
  | cons y ys ih =>
    have hy : y.block_id ≠ id := hpre y (by simp)
    simp [hitBump, hy, ih (fun z hz => hpre z (by simp [hz]))]

theorem evictFirstFree_eq_none_iff (l : List Entry) :
    evictFirstFree l = none ↔ ∀ e ∈ l, e.strong_count ≠ 1 := by
  induction l with
  | nil => simp [evictFirstFree]
  | cons e es ih =>
    by_cases h : e.strong_count = 1
    · simp [evictFirstFree, h]
    · simp only [evictFirstFree, if_neg h, Option.map_eq_none', ih,
        List.mem_cons]
      constructor
      · rintro hall x (rfl | hx)
        · exact h
        · exact hall x hx
      · intro hall x hx
        exact hall x (Or.inr hx)

theorem evictFirstFree_append (pre : List Entry) (v : Entry)
    (post : List Entry) (hpre : ∀ y ∈ pre, y.strong_count ≠ 1)
    (hv : v.strong_count = 1) :
    evictFirstFree (pre ++ v :: post) = some (v, pre ++ post) := by
  induction pre with
  | nil => simp [evictFirstFree, hv]
  | cons y ys ih =>
    have hy : y.strong_count ≠ 1 := hpre y (by simp)
    simp [evictFirstFree, hy, ih (fun z hz => hpre z (by simp [hz]))]

theorem evictFirstFree_mem (l : List Entry) (v : Entry) (rest : List Entry)
    (h : evictFirstFree l = some (v, rest)) :
    v ∈ l ∧ v.strong_count = 1 := by
  induction l generalizing v rest with
  | nil => simp [evictFirstFree] at h
  | cons e es ih =>
    by_cases he : e.strong_count = 1
    · simp only [evictFirstFree, if_pos he, Option.some_inj,
        Prod.mk.injEq] at h
      obtain ⟨rfl, -⟩ := h
      exact ⟨List.mem_cons_self _ _, he⟩
    · simp only [evictFirstFree, if_neg he, Option.map_eq_some'] at h
      obtain ⟨⟨v0, rest0⟩, hp, heq⟩ := h
      simp only [Prod.mk.injEq] at heq
      obtain ⟨rfl, -⟩ := heq
      have hm := ih v0 rest0 hp
      exact ⟨List.mem_cons_of_mem _ hm.1, hm.2⟩

/-- C1 (counterexample): the claim says `get_block_cache` panics **iff** the
queue holds 16 entries and every entry's reference count exceeds 1.  In the
state `mgrFullHeld` the queue holds 16 entries and every reference count is
2, yet requesting block 3 — which is in the queue — succeeds without a
panic, refuting the "if" direction. -/
theorem claimC1_counterexample :
    mgrFullHeld.queue.length = 16 ∧
    (∀ e ∈ mgrFullHeld.queue, 1 < e.strong_count) ∧
    (mgrFullHeld.get_block_cache 3 (fun _ => 0)).isSome = true := by
  decide

/-- C1 (amended): for every call to `get_block_cache(id, device)`: a queue
hit returns a bumped shared handle to that same entry with no eviction and
no device traffic; on a miss with a full queue, the first entry from the
front whose reference count is 1 is removed, its destructor writing its
buffer iff its dirty flag is set, before the block is loaded (one device
read) and appended at the back; on a miss with a non-full queue the block
is loaded and appended with no eviction; and the call panics **iff the
requested id is absent from the queue**, the queue holds 16 entries, and
every entry's reference count exceeds 1. -/
theorem claimC1_get_block_cache_characterization
    (mgr : BlockCacheManager) (block_id : Nat) (device : Nat → Buf)
    (hinv : ∀ e ∈ mgr.queue, 1 ≤ e.strong_count) :
    (∀ pre x post, mgr.queue = pre ++ x :: post →
        (∀ y ∈ pre, y.block_id ≠ block_id) → x.block_id = block_id →
        mgr.get_block_cache block_id device =
          some (⟨pre ++ { x with strong_count := x.strong_count + 1 } :: post⟩,
                { x with strong_count := x.strong_count + 1 }, [])) ∧
    ((∀ e ∈ mgr.queue, e.block_id ≠ block_id) →
      mgr.queue.length = BLOCK_CACHE_SIZE →
      ∀ pre v post, mgr.queue = pre ++ v :: post →
        (∀ y ∈ pre, y.strong_count ≠ 1) → v.strong_count = 1 →
        mgr.get_block_cache block_id device =
          some (⟨(pre ++ post) ++ [⟨block_id, 2, ⟨device block_id, block_id, false⟩⟩]⟩,
                ⟨block_id, 2, ⟨device block_id, block_id, false⟩⟩,
                (if v.cache.modified then
                  [DevEvent.write v.cache.block_id v.cache.cache] else []) ++
                  [DevEvent.read block_id])) ∧
    ((∀ e ∈ mgr.queue, e.block_id ≠ block_id) →
      mgr.queue.length ≠ BLOCK_CACHE_SIZE →
      mgr.get_block_cache block_id device =
        some (⟨mgr.queue ++ [⟨block_id, 2, ⟨device block_id, block_id, false⟩⟩]⟩,
              ⟨block_id, 2, ⟨device block_id, block_id, false⟩⟩,
              [DevEvent.read block_id])) ∧
    (mgr.get_block_cache block_id device = none ↔
      ((∀ e ∈ mgr.queue, e.block_id ≠ block_id) ∧
       mgr.queue.length = BLOCK_CACHE_SIZE ∧
       ∀ e ∈ mgr.queue, 1 < e.strong_count)) := by
  refine ⟨?_, ?_, ?_, ?_⟩
  · intro pre x post hq hpre hx
    unfold BlockCacheManager.get_block_cache
    rw [hq, hitBump_append pre x post block_id hpre hx]
  · intro hmiss hlen pre v post hq hpre hv
    have h1 : hitBump mgr.queue block_id = none :=
      (hitBump_eq_none_iff _ _).mpr hmiss
    have h2 : evictFirstFree mgr.queue = some (v, pre ++ post) := by
      rw [hq]; exact evictFirstFree_append pre v post hpre hv
    unfold BlockCacheManager.get_block_cache
    rw [h1]
    simp only [if_pos hlen, h2, Option.map_some']
    by_cases hm : v.cache.modified <;>
      simp [BlockCache.sync, BlockCache.new, hm]
  · intro hmiss hlen
    have h1 : hitBump mgr.queue block_id = none :=
      (hitBump_eq_none_iff _ _).mpr hmiss
    unfold BlockCacheManager.get_block_cache
    rw [h1]
    simp [if_neg hlen, BlockCache.new]
  · cases h1 : hitBump mgr.queue block_id with
    | some p =>
      have : ¬ ∀ e ∈ mgr.queue, e.block_id ≠ block_id := by
        intro hall
        rw [(hitBump_eq_none_iff _ _).mpr hall] at h1
        exact absurd h1 (by simp)
      unfold BlockCacheManager.get_block_cache
      rw [h1]
      simp [this]
    | none =>
      by_cases hlen : mgr.queue.length = BLOCK_CACHE_SIZE
      · cases hev : evictFirstFree mgr.queue with
        | none =>
          have hall : ∀ e ∈ mgr.queue, e.strong_count ≠ 1 :=
            (evictFirstFree_eq_none_iff _).mp hev
          unfold BlockCacheManager.get_block_cache
          rw [h1]
          simp only [if_pos hlen, hev, Option.map_none']
          constructor
          · intro _
            refine ⟨(hitBump_eq_none_iff _ _).mp h1, hlen, fun e he => ?_⟩
            exact Nat.lt_of_le_of_ne (hinv e he) (Ne.symm (hall e he))
          · intro _; trivial
        | some p =>
          obtain ⟨v, rest⟩ := p
          have hm := evictFirstFree_mem mgr.queue v rest hev
          unfold BlockCacheManager.get_block_cache
          rw [h1]
          simp only [if_pos hlen, hev, Option.map_some']
          constructor
          · intro hcon; exact absurd hcon (by simp)
          · rintro ⟨-, -, hall⟩
            exact absurd hm.2 (Nat.ne_of_gt (hall v hm.1))
      · unfold BlockCacheManager.get_block_cache
        rw [h1]
        simp [if_neg hlen, hlen]

/-- C1 (witness for the amended theorem): in a single-entry queue holding
block 5 with reference count 1, requesting block 5 returns the same entry
with its count bumped to 2 and causes no device traffic. -/
theorem claimC1_witness :
    BlockCacheManager.get_block_cache ⟨[⟨5, 1, ⟨7, 5, true⟩⟩]⟩ 5 (fun _ => 0) =
      some (⟨[⟨5, 2, ⟨7, 5, true⟩⟩]⟩, ⟨5, 2, ⟨7, 5, true⟩⟩, []) :=
  (claimC1_get_block_cache_characterization ⟨[⟨5, 1, ⟨7, 5, true⟩⟩]⟩ 5
      (fun _ => 0) (by decide)).1
    [] ⟨5, 1, ⟨7, 5, true⟩⟩ [] rfl (by simp) rfl

/-- C10: `BlockCache::sync` emits a device write iff the dirty flag is set,
and the flag is clear afterwards; hence a second `sync` with no intervening
`modify` writes nothing, and `sync` on a freshly loaded, never-modified
cache writes nothing at all. -/
theorem claimC10_sync_idempotent (c : BlockCache) (block_id : Nat)
    (device : Nat → Buf) :
    (c.sync.2 = if c.modified then
        [DevEvent.write c.block_id c.cache] else []) ∧
    c.sync.1.modified = false ∧
    c.sync.1.sync.2 = [] ∧
    ((BlockCache.new block_id device).1.sync).2 = [] := by
  by_cases h : c.modified <;>
    simp [BlockCache.sync, BlockCache.new, h]

/-! ## Lemmas about the bitmap allocator -/

theorem trailingOnesAux_spec (fuel : Nat) :
    ∀ w : Nat, w < 2 ^ fuel → w ≠ 2 ^ fuel - 1 →
      trailingOnesAux fuel w < fuel ∧
      w.testBit (trailingOnesAux fuel w) = false ∧
      ∀ j < trailingOnesAux fuel w, w.testBit j = true := by
  induction fuel with
  | zero =>
    intro w hw hne
    exact absurd (by omega : w = 2 ^ 0 - 1) hne
  | succ fuel ih =>
    intro w hw hne
    have h2 : 2 ^ (fuel + 1) = 2 * 2 ^ fuel := by
      rw [Nat.pow_succ, Nat.mul_comm]
    by_cases hodd : w % 2 = 1
    · have hdiv : w / 2 < 2 ^ fuel := by omega
      have hdne : w / 2 ≠ 2 ^ fuel - 1 := by
        intro heq
        apply hne
        have hpow : 1 ≤ 2 ^ fuel := Nat.one_le_two_pow
        omega
      obtain ⟨iht, ihb, ihlow⟩ := ih (w / 2) hdiv hdne
      have hrw : trailingOnesAux (fuel + 1) w =
          trailingOnesAux fuel (w / 2) + 1 := by
        simp [trailingOnesAux, hodd]
      refine ⟨by omega, ?_, ?_⟩
      · rw [hrw, Nat.testBit_add_one]
        exact ihb
      · rw [hrw]
        intro j hj
        cases j with
        | zero => simp [hodd]
        | succ j2 =>
          rw [Nat.testBit_add_one]
          exact ihlow j2 (by omega)
    · have hrw : trailingOnesAux (fuel + 1) w = 0 := by
        simp [trailingOnesAux, hodd]
      refine ⟨by omega, ?_, ?_⟩
      · rw [hrw]
        simp only [Nat.testBit_zero]
        simp [hodd]
      · rw [hrw]
        intro j hj
        omega

theorem u64_eq_max_iff (w : Nat) (hw : w < 2 ^ 64) :
    w = U64_MAX ↔ ∀ j < 64, w.testBit j = true := by
  constructor
  · rintro rfl j hj
    show Nat.testBit (2 ^ 64 - 1) j = true
    rw [Nat.testBit_two_pow_sub_one]
    simp [hj]
  · intro hall
    apply Nat.eq_of_testBit_eq
    intro i
    by_cases hi : i < 64
    · rw [hall i hi, U64_MAX, Nat.testBit_two_pow_sub_one]
      simp [hi]
    · have hwi : w.testBit i = false :=
        Nat.testBit_lt_two_pow
          (lt_of_lt_of_le hw (Nat.pow_le_pow_right (by norm_num) (by omega)))
      rw [hwi, U64_MAX, Nat.testBit_two_pow_sub_one]
      simp [hi]

theorem setLowestClear_spec (w : Nat) (hw : w < 2 ^ 64)
    (hne : w ≠ U64_MAX) :
    u64_trailing_ones w < 64 ∧
    w.testBit (u64_trailing_ones w) = false ∧
    (∀ j < u64_trailing_ones w, w.testBit j = true) ∧
    (∀ j, (w ||| 1 <<< u64_trailing_ones w).testBit j =
      (w.testBit j || decide (j = u64_trailing_ones w))) ∧
    w ||| 1 <<< u64_trailing_ones w < 2 ^ 64 := by
  have h := trailingOnesAux_spec 64 w hw (by simpa [U64_MAX] using hne)
  have hshift : (1 : Nat) <<< u64_trailing_ones w = 2 ^ u64_trailing_ones w := by
    rw [Nat.shiftLeft_eq, Nat.one_mul]
  refine ⟨h.1, h.2.1, h.2.2, ?_, ?_⟩
  · intro j
    rw [hshift, Nat.testBit_or, Nat.testBit_two_pow]
    by_cases hj : j = u64_trailing_ones w <;> simp [hj, eq_comm]
  · rw [hshift]
    exact Nat.or_lt_two_pow hw (Nat.pow_lt_pow_right (by norm_num) h.1)

theorem findFreeWord_eq_none_iff (l : List Nat) :
    findFreeWord l = none ↔ ∀ w ∈ l, w = U64_MAX := by
  induction l with
  | nil => simp [findFreeWord]
  | cons x xs ih =>
    by_cases hx : x = U64_MAX
    · subst hx
      simp [findFreeWord, Option.map_eq_none', ih]
    · simp [findFreeWord, hx]

theorem findFreeWord_spec (l : List Nat) (i w : Nat)
    (h : findFreeWord l = some (i, w)) :
    i < l.length ∧ l.getD i 0 = w ∧ w ≠ U64_MAX ∧
      ∀ j < i, l.getD j 0 = U64_MAX := by
  induction l generalizing i with
  | nil => simp [findFreeWord] at h
  | cons x xs ih =>
    by_cases hx : x = U64_MAX
    · subst hx
      simp only [findFreeWord, ne_eq, not_true_eq_false, if_false,
        Option.map_eq_some'] at h
      obtain ⟨⟨i0, w0⟩, hp, heq⟩ := h
      simp only [Prod.mk.injEq] at heq
      obtain ⟨hi, hw⟩ := heq
      subst hi
      subst hw
      obtain ⟨h1, h2, h3, h4⟩ := ih i0 hp
      refine ⟨by simpa using h1, by simpa using h2, h3, ?_⟩
      intro j hj
      cases j with
      | zero => simp
      | succ j2 => simpa using h4 j2 (by omega)
    · simp only [findFreeWord, ne_eq, hx, not_false_eq_true, if_true,
        Option.some_inj, Prod.mk.injEq] at h
      obtain ⟨h0, hxw⟩ := h
      subst hxw
      refine ⟨by simp [← h0], by simp [← h0], hx, ?_⟩
      intro j hj
      omega

theorem getD_set_self {α : Type} (l : List α) (i : Nat) (v d : α)
    (h : i < l.length) : (l.set i v).getD i d = v := by
  simp [List.getD_eq_getElem?_getD, List.getElem?_set_self h]

theorem getD_set_ne {α : Type} (l : List α) (i k : Nat) (v d : α)
    (h : i ≠ k) : (l.set i v).getD k d = l.getD k d := by
  simp [List.getD_eq_getElem?_getD, List.getElem?_set_ne h]

theorem getD_mem {α : Type} (l : List α) (i : Nat) (d : α)
    (h : i < l.length) : l.getD i d ∈ l := by
  rw [List.getD_eq_getElem?_getD, List.getElem?_eq_getElem h]
  exact List.getElem_mem h

theorem MAX_testBit (r : Nat) (hr : r < 64) : U64_MAX.testBit r = true := by
  show Nat.testBit (2 ^ 64 - 1) r = true
  rw [Nat.testBit_two_pow_sub_one]
  simp [hr]

theorem BLOCK_BITS_eq : BLOCK_BITS = 4096 := rfl

theorem blockAlloc_none_iff (b : List Nat) :
    blockAlloc b = none ↔ ∀ w ∈ b, w = U64_MAX := by
  unfold blockAlloc
  cases h : findFreeWord b with
  | none =>
    simp only [true_iff]
    exact (findFreeWord_eq_none_iff b).mp h
  | some iw =>
    obtain ⟨i, w⟩ := iw
    obtain ⟨hi, hgd, hwne, -⟩ := findFreeWord_spec b i w h
    simp only [reduceCtorEq, false_iff]
    intro hall
    exact hwne (hall w (hgd ▸ getD_mem b i 0 hi))

theorem blockAlloc_some_spec (b : List Nat) (hwf : wfBlock b)
    (b2 : List Nat) (p : Nat) (h : blockAlloc b = some (b2, p)) :
    p < BLOCK_BITS ∧
    blkTestBit b p = false ∧
    (∀ j < p, blkTestBit b j = true) ∧
    (∀ j < BLOCK_BITS, blkTestBit b2 j = (blkTestBit b j || decide (j = p))) ∧
    wfBlock b2 := by
  unfold blockAlloc at h
  cases hf : findFreeWord b with
  | none => rw [hf] at h; cases h
  | some iw =>
    obtain ⟨i, w⟩ := iw
    rw [hf] at h
    simp only [Option.some_inj, Prod.mk.injEq] at h
    obtain ⟨hb2, hp⟩ := h
    obtain ⟨hi, hgd, hwne, hprev⟩ := findFreeWord_spec b i w hf
    have hwlt : w < 2 ^ 64 := hwf.2 w (hgd ▸ getD_mem b i 0 hi)
    obtain ⟨ht, htb, hlow, hupd, hlt⟩ := setLowestClear_spec w hwlt hwne
    have hlen : b.length = 64 := hwf.1
    have hi64 : i < 64 := hlen ▸ hi
    subst hp
    subst hb2
    rw [BLOCK_BITS_eq]
    refine ⟨by omega, ?_, ?_, ?_, ?_⟩
    · unfold blkTestBit
      have hdiv : (i * 64 + u64_trailing_ones w) / 64 = i := by omega
      have hmod : (i * 64 + u64_trailing_ones w) % 64 = u64_trailing_ones w := by
        omega
      rw [hdiv, hmod, hgd]
      exact htb
    · intro j hj
      unfold blkTestBit
      have hq : j / 64 < i ∨ (j / 64 = i ∧ j % 64 < u64_trailing_ones w) := by
        omega
      rcases hq with hq | ⟨hq, hr⟩
      · rw [hprev (j / 64) hq]
        exact MAX_testBit (j % 64) (by omega)
      · rw [hq, hgd]
        exact hlow (j % 64) hr
    · intro j hj
      unfold blkTestBit
      by_cases hq : j / 64 = i
      · rw [hq, getD_set_self b i _ 0 hi, hgd, hupd (j % 64)]
        have hiff : j % 64 = u64_trailing_ones w ↔
            j = i * 64 + u64_trailing_ones w := by omega
        by_cases hr : j % 64 = u64_trailing_ones w
        · have hd1 : decide (j % 64 = u64_trailing_ones w) = true := by
            simp [hr]
          have hd2 : decide (j = i * 64 + u64_trailing_ones w) = true := by
            simp [hiff.mp hr]
          rw [hd1, hd2]
        · have hne2 : ¬ j = i * 64 + u64_trailing_ones w :=
            fun hx => hr (hiff.mpr hx)
          simp [hr, hne2]
      · rw [getD_set_ne b i (j / 64) _ 0 (fun hx => hq hx.symm)]
        have : j ≠ i * 64 + u64_trailing_ones w := by omega
        simp [this]
    · constructor
      · rw [List.length_set, hlen]
      · intro w2 hw2
        rcases List.mem_or_eq_of_mem_set hw2 with hmem | rfl
        · exact hwf.2 w2 hmem
        · exact hlt

theorem getD_eq_of_getElem {α : Type} (l : List α) (i : Nat)
    (h : i < l.length) (d : α) : l.getD i d = l[i] := by
  rw [List.getD_eq_getElem?_getD, List.getElem?_eq_getElem h]
  rfl

theorem allocLoop_none_spec (disk : List (List Nat)) (i : Nat) :
    ((allocLoop disk i).1 = none ↔ ∀ b ∈ disk, blockAlloc b = none) ∧
    ((allocLoop disk i).1 = none →
      (allocLoop disk i).2.1 = disk ∧
      (allocLoop disk i).2.2 = List.range' i disk.length) := by
  induction disk generalizing i with
  | nil => simp [allocLoop]
  | cons b rest ih =>
    cases hb : blockAlloc b with
    | some pr =>
      obtain ⟨b2, pos⟩ := pr
      constructor
      · simp only [allocLoop, hb, reduceCtorEq, false_iff]
        intro hall
        rw [hall b (List.mem_cons_self _ _)] at hb
        cases hb
      · intro h
        simp [allocLoop, hb] at h
    | none =>
      have ihs := ih (i + 1)
      constructor
      · simp only [allocLoop, hb, ihs.1]
        constructor
        · intro hall b0 hb0
          rcases List.mem_cons.mp hb0 with rfl | hmem
          · exact hb
          · exact hall b0 hmem
        · intro hall b0 hb0
          exact hall b0 (List.mem_cons_of_mem _ hb0)
      · intro h
        simp only [allocLoop, hb] at h ⊢
        obtain ⟨h1, h2⟩ := ihs.2 h
        rw [h1, h2, List.length_cons, List.range'_succ]
        exact ⟨rfl, rfl⟩

theorem allocLoop_some_spec (disk : List (List Nat)) (i pos : Nat)
    (h : (allocLoop disk i).1 = some pos) :
    ∃ k b2 p,
      k < disk.length ∧
      (∀ j < k, blockAlloc (disk.getD j []) = none) ∧
      blockAlloc (disk.getD k []) = some (b2, p) ∧
      pos = (i + k) * BLOCK_BITS + p ∧
      (allocLoop disk i).2.1 = disk.set k b2 ∧
      (allocLoop disk i).2.2 = List.range' i (k + 1) := by
  induction disk generalizing i pos with
  | nil => simp [allocLoop] at h
  | cons b rest ih =>
    cases hb : blockAlloc b with
    | some pr =>
      obtain ⟨b2, p⟩ := pr
      simp only [allocLoop, hb, Option.some_inj] at h
      refine ⟨0, b2, p, by simp, fun j hj => absurd hj (Nat.not_lt_zero j),
        by simpa using hb, by simpa using h.symm, ?_, ?_⟩
      · simp [allocLoop, hb]
      · simp [allocLoop, hb]
    | none =>
      simp only [allocLoop, hb] at h
      obtain ⟨k, b2, p, hk, hpre, hba, hpos, hupd, hevs⟩ := ih (i + 1) pos h
      refine ⟨k + 1, b2, p, by simpa using hk, ?_, by simpa using hba, ?_, ?_, ?_⟩
      · intro j hj
        cases j with
        | zero => simpa using hb
        | succ j2 => simpa using hpre j2 (by omega)
      · rw [hpos]
        have harith : i + 1 + k = i + (k + 1) := by omega
        rw [harith]
      · simp only [allocLoop, hb, List.set]
        rw [hupd]
      · simp only [allocLoop, hb]
        rw [hevs]
        simp [List.range'_succ]

/-- C2 (counterexample): on a two-block bitmap region whose first block is
entirely allocated, a single call to `Bitmap::alloc` performs a cache
`modify` on **two** distinct cache entries (relative block indices 0 and
1), because the loop calls `modify` on every block it scans; this refutes
"exactly one `modify` on exactly one cache entry". -/
theorem claimC2_counterexample :
    wfDisk [List.replicate 64 U64_MAX, List.replicate 64 0] ∧
    (bitmapAlloc [List.replicate 64 U64_MAX, List.replicate 64 0]).1 =
      some 4096 ∧
    (bitmapAlloc [List.replicate 64 U64_MAX, List.replicate 64 0]).2.2 =
      [0, 1] := by
  refine ⟨by decide, by decide, by decide⟩

/-- C2 (amended): `Bitmap::dealloc` performs exactly one `modify`, on the
cache entry of the block containing the bit.  `Bitmap::alloc` performs one
`modify` on every bitmap block it scans — the blocks from index 0 through
the block in which it allocates, and every block when it returns `None` —
so it performs exactly one `modify` precisely when the allocated bit lies
in the first bitmap block. -/
theorem claimC2_modify_footprint (disk : List (List Nat)) (bit : Nat)
    (hwf : wfDisk disk) :
    (bitmapDealloc disk bit).2 = [bit / BLOCK_BITS] ∧
    ((bitmapAlloc disk).1 = none →
      (bitmapAlloc disk).2.2 = List.range disk.length) ∧
    (∀ pos, (bitmapAlloc disk).1 = some pos →
      (bitmapAlloc disk).2.2 = List.range (pos / BLOCK_BITS + 1) ∧
      (pos < BLOCK_BITS → (bitmapAlloc disk).2.2 = [0])) := by
  refine ⟨rfl, ?_, ?_⟩
  · intro h
    have hn := (allocLoop_none_spec disk 0).2 h
    rw [show (bitmapAlloc disk).2.2 = (allocLoop disk 0).2.2 from rfl,
      hn.2, List.range_eq_range']
  · intro pos h
    obtain ⟨k, b2, p, hk, hpre, hba, hpos, hupd, hevs⟩ :=
      allocLoop_some_spec disk 0 pos h
    rw [Nat.zero_add] at hpos
    have hwfb : wfBlock (disk.getD k []) := hwf _ (getD_mem disk k [] hk)
    have hp := (blockAlloc_some_spec _ hwfb _ _ hba).1
    rw [BLOCK_BITS_eq] at hp
    rw [BLOCK_BITS_eq] at hpos
    have hdiv : pos / BLOCK_BITS = k := by
      rw [BLOCK_BITS_eq]; omega
    constructor
    · rw [show (bitmapAlloc disk).2.2 = (allocLoop disk 0).2.2 from rfl,
        hevs, hdiv, List.range_eq_range']
    · intro hlt
      rw [BLOCK_BITS_eq] at hlt
      have hk0 : k = 0 := by omega
      rw [show (bitmapAlloc disk).2.2 = (allocLoop disk 0).2.2 from rfl,
        hevs, hk0]
      rfl

/-- C2 (witness for the amended theorem): deallocating bit 5 of a
one-block bitmap performs exactly one `modify`, on relative block 0. -/
theorem claimC2_witness :
    wfDisk [List.replicate 64 0] ∧
    (bitmapDealloc [List.replicate 64 0] 5).2 = [5 / BLOCK_BITS] :=
  ⟨by decide,
    (claimC2_modify_footprint [List.replicate 64 0] 5 (by decide)).1⟩

/-- C3: on a well-formed bitmap region, `Bitmap::alloc` returns `None` iff
every one of the `blocks · BLOCK_BITS` bits is set; otherwise it returns
`some pos` where `pos` is the globally lowest clear bit (equivalently: the
lowest clear bit of the first non-full word of the first block containing
one, at global index `block_pos · BLOCK_BITS + word_pos · 64 + inner_pos`),
and the new contents agree with the old on every bit except `pos`, which
becomes set. -/
theorem claimC3_alloc_functional (disk : List (List Nat))
    (hwf : wfDisk disk) :
    ((bitmapAlloc disk).1 = none ↔
      ∀ i < disk.length * BLOCK_BITS, diskTestBit disk i = true) ∧
    ∀ pos, (bitmapAlloc disk).1 = some pos →
      pos < disk.length * BLOCK_BITS ∧
      diskTestBit disk pos = false ∧
      (∀ j < pos, diskTestBit disk j = true) ∧
      (∀ j < disk.length * BLOCK_BITS,
        diskTestBit (bitmapAlloc disk).2.1 j =
          (diskTestBit disk j || decide (j = pos))) ∧
      wfDisk (bitmapAlloc disk).2.1 ∧
      (bitmapAlloc disk).2.1.length = disk.length := by
  constructor
  · rw [show (bitmapAlloc disk).1 = (allocLoop disk 0).1 from rfl,
      (allocLoop_none_spec disk 0).1]
    constructor
    · intro hall i hi
      rw [BLOCK_BITS_eq] at hi
      have hk : i / 4096 < disk.length := by omega
      have hbmem : disk.getD (i / 4096) [] ∈ disk := getD_mem _ _ _ hk
      have hwfb : wfBlock (disk.getD (i / 4096) []) := hwf _ hbmem
      have hmax : ∀ w ∈ disk.getD (i / 4096) [], w = U64_MAX :=
        (blockAlloc_none_iff _).mp (hall _ hbmem)
      unfold diskTestBit blkTestBit
      rw [BLOCK_BITS_eq]
      rw [hmax _ (getD_mem _ _ _ (by rw [hwfb.1]; omega))]
      exact MAX_testBit _ (by omega)
    · intro hall b hbmem
      rw [blockAlloc_none_iff]
      intro w hwmem
      obtain ⟨kb, hkb, hkbeq⟩ := List.getElem_of_mem hbmem
      obtain ⟨iw, hiw, hiweq⟩ := List.getElem_of_mem hwmem
      have hwfb : wfBlock b := hwf b hbmem
      have hwlt : w < 2 ^ 64 := hwfb.2 w hwmem
      have hiw64 : iw < 64 := hwfb.1 ▸ hiw
      rw [u64_eq_max_iff w hwlt]
      intro j hj
      have hg := hall (kb * 4096 + iw * 64 + j)
        (by rw [BLOCK_BITS_eq]; omega)
      unfold diskTestBit blkTestBit at hg
      rw [BLOCK_BITS_eq] at hg
      have hd1 : (kb * 4096 + iw * 64 + j) / 4096 = kb := by omega
      have hd2 : (kb * 4096 + iw * 64 + j) % 4096 = iw * 64 + j := by omega
      have hd3 : (iw * 64 + j) / 64 = iw := by omega
      have hd4 : (iw * 64 + j) % 64 = j := by omega
      rw [hd1, hd2, hd3, hd4, getD_eq_of_getElem disk kb hkb, hkbeq,
        getD_eq_of_getElem b iw hiw, hiweq] at hg
      exact hg
  · intro pos h
    obtain ⟨k, b2, p, hk, hpre, hba, hpos, hupd, hevs⟩ :=
      allocLoop_some_spec disk 0 pos h
    rw [Nat.zero_add] at hpos
    have hbmem : disk.getD k [] ∈ disk := getD_mem _ _ _ hk
    have hwfb : wfBlock (disk.getD k []) := hwf _ hbmem
    obtain ⟨hp, hbit, hlow, hupd2, hwfb2⟩ :=
      blockAlloc_some_spec _ hwfb b2 p hba
    rw [BLOCK_BITS_eq] at hp hpos
    refine ⟨by rw [BLOCK_BITS_eq]; omega, ?_, ?_, ?_, ?_, ?_⟩
    · unfold diskTestBit
      rw [BLOCK_BITS_eq]
      have hq : pos / 4096 = k := by omega
      have hr : pos % 4096 = p := by omega
      rw [hq, hr]
      exact hbit
    · intro j hj
      unfold diskTestBit
      rw [BLOCK_BITS_eq]
      have hcase : j / 4096 < k ∨ (j / 4096 = k ∧ j % 4096 < p) := by omega
      rcases hcase with hq | ⟨hq, hr⟩
      · have hjk : j / 4096 < disk.length := by omega
        have hbq : ∀ w ∈ disk.getD (j / 4096) [], w = U64_MAX :=
          (blockAlloc_none_iff _).mp (hpre _ hq)
        have hwfq : wfBlock (disk.getD (j / 4096) []) :=
          hwf _ (getD_mem _ _ _ hjk)
        unfold blkTestBit
        rw [hbq _ (getD_mem _ _ _ (by rw [hwfq.1]; omega))]
        exact MAX_testBit _ (by omega)
      · rw [hq]
        exact hlow _ hr
    · intro j hj
      rw [BLOCK_BITS_eq] at hj
      rw [show (bitmapAlloc disk).2.1 = disk.set k b2 from hupd]
      unfold diskTestBit
      rw [BLOCK_BITS_eq]
      by_cases hq : j / 4096 = k
      · rw [hq, getD_set_self disk k b2 [] hk]
        have hupd2a := hupd2 (j % 4096) (by rw [BLOCK_BITS_eq]; omega)
        rw [hupd2a]
        have hiff : j % 4096 = p ↔ j = pos := by omega
        by_cases hr : j % 4096 = p
        · have hd1 : decide (j % 4096 = p) = true := by simp [hr]
          have hd2 : decide (j = pos) = true := by simp [hiff.mp hr]
          rw [hd1, hd2]
        · have hd1 : decide (j % 4096 = p) = false := by simp [hr]
          have hd2 : decide (j = pos) = false := by
            simp only [decide_eq_false_iff_not]
            exact fun hx => hr (hiff.mpr hx)
          rw [hd1, hd2]
      · rw [getD_set_ne disk k (j / 4096) b2 [] (fun hx => hq hx.symm)]
        have hne : ¬ j = pos := by omega
        simp [hne]
    · intro b0 hb0
      rw [show (bitmapAlloc disk).2.1 = disk.set k b2 from hupd] at hb0
      rcases List.mem_or_eq_of_mem_set hb0 with hmem | rfl
      · exact hwf b0 hmem
      · exact hwfb2
    · rw [show (bitmapAlloc disk).2.1 = disk.set k b2 from hupd,
        List.length_set]

/-- C3 (witness): on a one-block region of all-zero words, `alloc` is not
`None` (not all bits are set), as an instance of the main theorem. -/
theorem claimC3_witness :
    wfDisk [List.replicate 64 0] ∧
    ((bitmapAlloc [List.replicate 64 0]).1 = none ↔
      ∀ i < [List.replicate 64 (0 : Nat)].length * BLOCK_BITS,
        diskTestBit [List.replicate 64 0] i = true) :=
  ⟨by decide, (claimC3_alloc_functional [List.replicate 64 0] (by decide)).1⟩

/-! ## Layout theorems -/

/-- C4: for a valid layout, `open` applied to the superblock written by
`create(dev, total_blocks, inode_bitmap_blocks)` succeeds (the magic
validates) and reconstructs exactly the layout parameters of the created
filesystem: same inode-bitmap start and length, same data-bitmap start and
length, same `inode_area_start_block`, same `data_area_start_block`. -/
theorem claimC4_format_roundtrip (total_blocks inode_bitmap_blocks : Nat)
    (_hvalid : 1 + inode_bitmap_blocks +
      (inode_bitmap_blocks * BLOCK_BITS * DISKINODE_SZ + BLOCK_SZ - 1) /
        BLOCK_SZ ≤ total_blocks)
    (_hbound : total_blocks < 2 ^ 32) :
    EasyFileSystem.open
        (EasyFileSystem.create total_blocks inode_bitmap_blocks).2 =
      some (EasyFileSystem.create total_blocks inode_bitmap_blocks).1 := by
  unfold EasyFileSystem.open EasyFileSystem.create SuperBlock.initialize
    SuperBlock.is_valid
  simp only [beq_self_eq_true, if_true, Option.some_inj, EfsParams.mk.injEq,
    BitmapParams.mk.injEq, BitmapParams.maximum, true_and, and_true]
  omega

/-- C4 (witness): the standard test geometry `total_blocks = 4096`,
`inode_bitmap_blocks = 1` round-trips. -/
theorem claimC4_witness :
    EasyFileSystem.open (EasyFileSystem.create 4096 1).2 =
      some (EasyFileSystem.create 4096 1).1 :=
  claimC4_format_roundtrip 4096 1 (by decide) (by decide)

/-- C5: with `B = 512` the layout arithmetic of `create` is exactly as
claimed: `inode_num = inode_bitmap_blocks·B·8`; `inode_area_blocks` is the
integer ceiling of `inode_num·sizeof(DiskInode) / B` (characterized as the
unique `n` with `inode_num·128 ≤ n·512 < inode_num·128 + 512`, computed as
`(inode_num·128 + 511) / 512`); `data_total = total_blocks − 1 −
inode_bitmap_blocks − inode_area_blocks`; `data_bitmap_blocks =
(data_total + 4096) / 4097` by integer division; and `data_area_blocks =
data_total − data_bitmap_blocks`. -/
theorem claimC5_layout_arithmetic (total_blocks inode_bitmap_blocks : Nat)
    (hvalid : 1 + inode_bitmap_blocks +
      (inode_bitmap_blocks * BLOCK_BITS * DISKINODE_SZ + BLOCK_SZ - 1) /
        BLOCK_SZ ≤ total_blocks)
    (hbound : total_blocks + 4096 < 2 ^ 32) :
    BLOCK_SZ = 512 ∧ DISKINODE_SZ = 128 ∧
    ((EasyFileSystem.create total_blocks inode_bitmap_blocks).2.inode_bitmap_blocks
        = inode_bitmap_blocks ∧
      (EasyFileSystem.create total_blocks inode_bitmap_blocks).2.inode_area_blocks
        = (inode_bitmap_blocks * 512 * 8 * 128 + 512 - 1) / 512 ∧
      (inode_bitmap_blocks * 512 * 8 * 128 ≤
        (EasyFileSystem.create total_blocks inode_bitmap_blocks).2.inode_area_blocks * 512 ∧
       (EasyFileSystem.create total_blocks inode_bitmap_blocks).2.inode_area_blocks * 512 <
        inode_bitmap_blocks * 512 * 8 * 128 + 512) ∧
      (EasyFileSystem.create total_blocks inode_bitmap_blocks).2.data_bitmap_blocks
        = (total_blocks - 1 - inode_bitmap_blocks -
            (EasyFileSystem.create total_blocks inode_bitmap_blocks).2.inode_area_blocks
            + 4096) / 4097 ∧
      (EasyFileSystem.create total_blocks inode_bitmap_blocks).2.data_area_blocks
        = total_blocks - 1 - inode_bitmap_blocks -
            (EasyFileSystem.create total_blocks inode_bitmap_blocks).2.inode_area_blocks
            - (EasyFileSystem.create total_blocks inode_bitmap_blocks).2.data_bitmap_blocks) := by
  refine ⟨rfl, rfl, ?_⟩
  simp only [EasyFileSystem.create, SuperBlock.initialize,
    BitmapParams.maximum]
  unfold BLOCK_BITS BLOCK_SZ DISKINODE_SZ at hvalid ⊢
  simp only [true_and]
  omega

/-- C5 (witness): the arithmetic at the standard geometry
`total_blocks = 4096`, `inode_bitmap_blocks = 1`. -/
theorem claimC5_witness :
    BLOCK_SZ = 512 ∧ DISKINODE_SZ = 128 ∧
    ((EasyFileSystem.create 4096 1).2.inode_bitmap_blocks = 1 ∧
      (EasyFileSystem.create 4096 1).2.inode_area_blocks =
        (1 * 512 * 8 * 128 + 512 - 1) / 512 ∧
      (1 * 512 * 8 * 128 ≤
        (EasyFileSystem.create 4096 1).2.inode_area_blocks * 512 ∧
       (EasyFileSystem.create 4096 1).2.inode_area_blocks * 512 <
        1 * 512 * 8 * 128 + 512) ∧
      (EasyFileSystem.create 4096 1).2.data_bitmap_blocks =
        (4096 - 1 - 1 - (EasyFileSystem.create 4096 1).2.inode_area_blocks
          + 4096) / 4097 ∧
      (EasyFileSystem.create 4096 1).2.data_area_blocks =
        4096 - 1 - 1 - (EasyFileSystem.create 4096 1).2.inode_area_blocks
          - (EasyFileSystem.create 4096 1).2.data_bitmap_blocks) :=
  claimC5_layout_arithmetic 4096 1 (by decide) (by decide)

/-! ## Lemmas about the directory layer -/

theorem findNameIdx_eq_none_iff (name : String) (l : List DirEntry) :
    findNameIdx name l = none ↔ ∀ e ∈ l, ¬ e.name = name := by
  induction l with
  | nil => simp [findNameIdx]
  | cons e es ih =>
    by_cases he : e.name = name
    · simp [findNameIdx, he]
    · simp only [findNameIdx, beq_iff_eq, if_neg he, Option.map_eq_none', ih,
        List.mem_cons]
      constructor
      · rintro hall x (rfl | hx)
        · exact he
        · exact hall x hx
      · intro hall x hx
        exact hall x (Or.inr hx)

theorem findNameIdx_spec (name : String) (l : List DirEntry) (i : Nat)
    (h : findNameIdx name l = some i) :
    i < l.length ∧ (l.getD i DirEntry.empty).name = name ∧
      ∀ j < i, ¬ (l.getD j DirEntry.empty).name = name := by
  induction l generalizing i with
  | nil => simp [findNameIdx] at h
  | cons e es ih =>
    by_cases he : e.name = name
    · simp only [findNameIdx, beq_iff_eq, if_pos he, Option.some_inj] at h
      subst h
      exact ⟨by simp, by simpa using he, by omega⟩
    · simp only [findNameIdx, beq_iff_eq, if_neg he, Option.map_eq_some'] at h
      obtain ⟨i0, hp, hi⟩ := h
      subst hi
      obtain ⟨h1, h2, h3⟩ := ih i0 hp
      refine ⟨by simpa using h1, by simpa using h2, ?_⟩
      intro j hj
      cases j with
      | zero => simpa using he
      | succ j2 => simpa using h3 j2 (by omega)

theorem increaseSize_grow (new_size : Nat) (d : DirInode) (nd : Nat)
    (h : ¬ new_size < d.size) :
    increaseSize new_size d nd =
      (⟨new_size, d.dirents,
         d.blocks ++
           (List.range (DiskInode.blocks_num_needed d.size new_size)).map
             (fun k => nd + k)⟩,
       nd + DiskInode.blocks_num_needed d.size new_size,
       ((List.range (DiskInode.blocks_num_needed d.size new_size)).map
           (fun k => nd + k)).map FsEvent.allocData) := by
  unfold increaseSize
  rw [if_neg h]

theorem decreaseSize_shrink (new_size : Nat) (d : DirInode)
    (h : ¬ d.size < new_size) :
    decreaseSize new_size d =
      (⟨new_size, d.dirents,
         d.blocks.take (DiskInode.total_blocks new_size)⟩,
       (d.blocks.drop (DiskInode.total_blocks new_size)).map
         FsEvent.deallocData) := by
  unfold decreaseSize
  rw [if_neg h]

theorem unlinkat_not_found (st : FsState) (name : String)
    (h : findNameIdx name st.dir.entries = none) :
    unlinkat name st = (-1, st, []) := by
  unfold unlinkat
  rw [h]

theorem unlinkat_found_eq (st : FsState) (name : String) (i : Nat)
    (hsz : st.dir.size % DIRENT_SZ = 0)
    (hwf : st.dir.size / DIRENT_SZ ≤ st.dir.dirents.length)
    (h : findNameIdx name st.dir.entries = some i) :
    unlinkat name st =
      (0,
        ⟨⟨st.dir.size - DIRENT_SZ,
           st.dir.dirents.set i
             (st.dir.readDirent (st.dir.size / DIRENT_SZ - 1)),
           st.dir.blocks.take
             (DiskInode.total_blocks (st.dir.size - DIRENT_SZ))⟩,
          st.inodeBitmap, st.nextData⟩,
        (st.dir.blocks.drop
          (DiskInode.total_blocks (st.dir.size - DIRENT_SZ))).map
          FsEvent.deallocData) := by
  have hspec := findNameIdx_spec name st.dir.entries i h
  have hlen : st.dir.entries.length = st.dir.size / DIRENT_SZ := by
    unfold DirInode.entries
    rw [List.length_take]
    omega
  have hfc1 : 1 ≤ st.dir.size / DIRENT_SZ := by omega
  have hilen : i < st.dir.dirents.length := by omega
  have hnewsz : (st.dir.size / DIRENT_SZ - 1) * DIRENT_SZ =
      st.dir.size - DIRENT_SZ := by
    unfold DIRENT_SZ at *
    omega
  unfold unlinkat
  rw [h]
  unfold writeDirentAt
  dsimp only
  rw [if_pos hilen]
  rw [decreaseSize_shrink _ _ (by
    show ¬ st.dir.size < (st.dir.size / DIRENT_SZ - 1) * DIRENT_SZ
    unfold DIRENT_SZ at *
    omega)]
  rw [hnewsz]

theorem unlinkat_ret_cases (st : FsState) (name : String) :
    (unlinkat name st).1 = 0 ∨ unlinkat name st = (-1, st, []) := by
  cases hf : findNameIdx name st.dir.entries with
  | none => exact Or.inr (unlinkat_not_found st name hf)
  | some i =>
    left
    unfold unlinkat
    rw [hf]

/-- C6: for every directory state and name, `unlinkat` returns `-1` and
leaves the state unchanged when no dirent (within `size`) has the name; on
a match it overwrites the first matching slot with the last slot's dirent,
shrinks `size` by exactly one `DIRENT_SZ`, and returns 0; and in every
case it leaves the inode bitmap unchanged (so the target inode's bit stays
set) and deallocates only blocks drawn from the directory's own block
tables — none of the target inode's data blocks (which, by the on-disk
exclusivity invariant, are disjoint from the directory's). -/
theorem claimC6_unlinkat_spec (st : FsState) (name : String)
    (hsz : st.dir.size % DIRENT_SZ = 0)
    (hwf : st.dir.size / DIRENT_SZ ≤ st.dir.dirents.length) :
    (findNameIdx name st.dir.entries = none →
      unlinkat name st = (-1, st, [])) ∧
    (∀ i, findNameIdx name st.dir.entries = some i →
      (st.dir.entries.getD i DirEntry.empty).name = name ∧
      (∀ j < i, ¬ (st.dir.entries.getD j DirEntry.empty).name = name) ∧
      (unlinkat name st).1 = 0 ∧
      (unlinkat name st).2.1.dir.dirents =
        st.dir.dirents.set i
          (st.dir.readDirent (st.dir.size / DIRENT_SZ - 1)) ∧
      (unlinkat name st).2.1.dir.size = st.dir.size - DIRENT_SZ ∧
      DIRENT_SZ ≤ st.dir.size) ∧
    (unlinkat name st).2.1.inodeBitmap = st.inodeBitmap ∧
    (∀ k, st.inodeBitmap.getD k false = true →
      (unlinkat name st).2.1.inodeBitmap.getD k false = true) ∧
    (∀ b, FsEvent.deallocData b ∈ (unlinkat name st).2.2 →
      b ∈ st.dir.blocks) ∧
    (∀ targetBlocks : List Nat,
      (∀ b ∈ targetBlocks, b ∉ st.dir.blocks) →
      ∀ b ∈ targetBlocks,
        FsEvent.deallocData b ∉ (unlinkat name st).2.2) := by
  have hbm : (unlinkat name st).2.1.inodeBitmap = st.inodeBitmap := by
    cases hf : findNameIdx name st.dir.entries with
    | none => rw [unlinkat_not_found st name hf]
    | some i => rw [unlinkat_found_eq st name i hsz hwf hf]
  have hde : ∀ b, FsEvent.deallocData b ∈ (unlinkat name st).2.2 →
      b ∈ st.dir.blocks := by
    cases hf : findNameIdx name st.dir.entries with
    | none =>
      rw [unlinkat_not_found st name hf]
      intro b hb
      simp at hb
    | some i =>
      rw [unlinkat_found_eq st name i hsz hwf hf]
      intro b hb
      simp only [List.mem_map] at hb
      obtain ⟨a, ha, hab⟩ := hb
      cases hab
      exact List.drop_subset _ _ ha
  refine ⟨fun h => unlinkat_not_found st name h, ?_, hbm, ?_, hde, ?_⟩
  · intro i hf
    have hspec := findNameIdx_spec name st.dir.entries i hf
    have hlenE : st.dir.entries.length = st.dir.size / DIRENT_SZ := by
      unfold DirInode.entries
      rw [List.length_take]
      omega
    rw [unlinkat_found_eq st name i hsz hwf hf]
    refine ⟨hspec.2.1, hspec.2.2, rfl, rfl, rfl, ?_⟩
    have h1 : 1 ≤ st.dir.size / DIRENT_SZ := by omega
    unfold DIRENT_SZ at *
    omega
  · intro k hk
    rw [hbm]
    exact hk
  · intro tb htb b hb hmem
    exact htb b hb (hde b hmem)

/-- C6 (witness): unlinking an absent name from a one-entry directory
returns `-1` and leaves the state unchanged. -/
theorem claimC6_witness :
    unlinkat "b" ⟨⟨32, [⟨"a", 7⟩], [100]⟩, [true], 0⟩ =
      (-1, ⟨⟨32, [⟨"a", 7⟩], [100]⟩, [true], 0⟩, []) :=
  (claimC6_unlinkat_spec ⟨⟨32, [⟨"a", 7⟩], [100]⟩, [true], 0⟩ "b"
      (by decide) (by decide)).1 (by decide)

/-- C8: when `Inode::create` finds the name already resolvable it returns
`None` before `fs.alloc_inode()` runs: the state is returned untouched —
no inode-bitmap bit set, no data block allocated, dirents and size
unmodified — and no allocation event is emitted. -/
theorem claimC8_create_existing_inert (st : FsState) (name : String)
    (h : (find_inode_id name st.dir).isSome = true) :
    createFile name st = some (none, st, []) := by
  unfold createFile
  rw [if_pos h]

/-- C8 (witness): creating `"a"` in a directory that already has a live
dirent `("a", 1)` is a no-op returning `None`. -/
theorem claimC8_witness :
    createFile "a" ⟨⟨32, [⟨"a", 1⟩], [100]⟩, [true], 0⟩ =
      some (none, ⟨⟨32, [⟨"a", 1⟩], [100]⟩, [true], 0⟩, []) :=
  claimC8_create_existing_inert ⟨⟨32, [⟨"a", 1⟩], [100]⟩, [true], 0⟩ "a"
    (by decide)

/-- C9: `unlinkat` matches dirents by name alone: if the first name match
within `size` is a dirent whose inode number is 0, `unlinkat` still
swap-removes it and returns 0, while `find_inode_id` on the same name
ignores tombstones — it returns `none` whenever every dirent carrying the
name has inode number 0. -/
theorem claimC9_unlinkat_matches_by_name (st : FsState) (name : String)
    (i : Nat) (hsz : st.dir.size % DIRENT_SZ = 0)
    (hwf : st.dir.size / DIRENT_SZ ≤ st.dir.dirents.length)
    (hfind : findNameIdx name st.dir.entries = some i)
    (_hino : (st.dir.entries.getD i DirEntry.empty).inode_number = 0) :
    (unlinkat name st).1 = 0 ∧
    (unlinkat name st).2.1.dir.size = st.dir.size - DIRENT_SZ ∧
    (unlinkat name st).2.1.dir.dirents =
      st.dir.dirents.set i
        (st.dir.readDirent (st.dir.size / DIRENT_SZ - 1)) ∧
    ((∀ e ∈ st.dir.entries, e.name = name → e.inode_number = 0) →
      find_inode_id name st.dir = none) := by
  rw [unlinkat_found_eq st name i hsz hwf hfind]
  refine ⟨rfl, rfl, rfl, ?_⟩
  intro hall
  unfold find_inode_id
  simp only [Option.map_eq_none', List.find?_eq_none, Bool.and_eq_true,
    bne_iff_ne, beq_iff_eq, not_and]
  intro e he hn0 hnm
  exact hn0 (hall e he hnm)

/-- C9 (witness): a directory whose only dirent is the tombstone
`("x", 0)`: `unlinkat "x"` returns 0 while `find_inode_id "x"` is
`none`. -/
theorem claimC9_witness :
    (unlinkat "x" ⟨⟨32, [⟨"x", 0⟩], []⟩, [true], 0⟩).1 = 0 ∧
    find_inode_id "x" ⟨32, [⟨"x", 0⟩], []⟩ = none :=
  ⟨(claimC9_unlinkat_matches_by_name ⟨⟨32, [⟨"x", 0⟩], []⟩, [true], 0⟩ "x" 0
      (by decide) (by decide) (by decide) (by decide)).1,
    (claimC9_unlinkat_matches_by_name ⟨⟨32, [⟨"x", 0⟩], []⟩, [true], 0⟩ "x" 0
      (by decide) (by decide) (by decide) (by decide)).2.2.2 (by decide)⟩

theorem linkat_not_found (st : FsState) (oldpath newpath : String)
    (hf : find_inode_id oldpath st.dir = none) :
    linkat oldpath newpath st = (-1, st, []) := by
  unfold linkat
  rw [hf]

theorem linkat_found_eq (st : FsState) (oldpath newpath : String)
    (inode_id : Nat) (hf : find_inode_id oldpath st.dir = some inode_id)
    (hgrow : ¬ (st.dir.size / DIRENT_SZ + 1) * DIRENT_SZ < st.dir.size) :
    linkat oldpath newpath st =
      (0,
        ⟨⟨(st.dir.size / DIRENT_SZ + 1) * DIRENT_SZ,
           writeDirentAt st.dir.dirents (st.dir.size / DIRENT_SZ)
             ⟨newpath, inode_id⟩,
           st.dir.blocks ++
             (List.range (DiskInode.blocks_num_needed st.dir.size
                 ((st.dir.size / DIRENT_SZ + 1) * DIRENT_SZ))).map
               (fun k => st.nextData + k)⟩,
          st.inodeBitmap,
          st.nextData + DiskInode.blocks_num_needed st.dir.size
            ((st.dir.size / DIRENT_SZ + 1) * DIRENT_SZ)⟩,
        ((List.range (DiskInode.blocks_num_needed st.dir.size
            ((st.dir.size / DIRENT_SZ + 1) * DIRENT_SZ))).map
            (fun k => st.nextData + k)).map FsEvent.allocData) := by
  unfold linkat
  rw [hf]
  dsimp only
  rw [increaseSize_grow _ _ _ hgrow]

/-- C7: for every directory state whose `size` is a multiple of
`DIRENT_SZ = 32`: a freshly initialized directory has size 0 (a multiple
of 32); a successful `create` or `linkat` grows `size` by exactly 32 and a
successful `unlinkat` shrinks it by exactly 32; a failing call leaves the
state unchanged; and in all cases the resulting size is again an exact
multiple of 32 — so every directory reachable from a freshly formatted
filesystem keeps the invariant. -/
theorem claimC7_size_multiple_of_32 (st : FsState)
    (cname oname nname uname : String)
    (hsz : st.dir.size % DIRENT_SZ = 0)
    (hwf : st.dir.size / DIRENT_SZ ≤ st.dir.dirents.length) :
    DiskInode.initializeDir.size % DIRENT_SZ = 0 ∧
    (∀ r st2 evs, createFile cname st = some (r, st2, evs) →
      ((∃ id, r = some id) → st2.dir.size = st.dir.size + DIRENT_SZ) ∧
      (r = none → st2 = st) ∧
      st2.dir.size % DIRENT_SZ = 0) ∧
    ((linkat oname nname st).1 = 0 →
      (linkat oname nname st).2.1.dir.size = st.dir.size + DIRENT_SZ) ∧
    ((linkat oname nname st).1 ≠ 0 → (linkat oname nname st).2.1 = st) ∧
    (linkat oname nname st).2.1.dir.size % DIRENT_SZ = 0 ∧
    ((unlinkat uname st).1 = 0 →
      (unlinkat uname st).2.1.dir.size = st.dir.size - DIRENT_SZ ∧
      DIRENT_SZ ≤ st.dir.size) ∧
    ((unlinkat uname st).1 ≠ 0 → (unlinkat uname st).2.1 = st) ∧
    (unlinkat uname st).2.1.dir.size % DIRENT_SZ = 0 := by
  have hgrow : ¬ (st.dir.size / DIRENT_SZ + 1) * DIRENT_SZ < st.dir.size := by
    unfold DIRENT_SZ at *
    omega
  have hgrowsz : (st.dir.size / DIRENT_SZ + 1) * DIRENT_SZ =
      st.dir.size + DIRENT_SZ := by
    unfold DIRENT_SZ at *
    omega
  have hunl : ((unlinkat uname st).1 = 0 →
      (unlinkat uname st).2.1.dir.size = st.dir.size - DIRENT_SZ ∧
      DIRENT_SZ ≤ st.dir.size) ∧
      ((unlinkat uname st).1 ≠ 0 → (unlinkat uname st).2.1 = st) ∧
      (unlinkat uname st).2.1.dir.size % DIRENT_SZ = 0 := by
    cases hf : findNameIdx uname st.dir.entries with
    | none =>
      rw [unlinkat_not_found st uname hf]
      exact ⟨fun h0 => absurd h0 (by simp), fun _ => rfl, hsz⟩
    | some i =>
      have hspec := findNameIdx_spec uname st.dir.entries i hf
      have hlenE : st.dir.entries.length = st.dir.size / DIRENT_SZ := by
        unfold DirInode.entries
        rw [List.length_take]
        omega
      have h1 : 1 ≤ st.dir.size / DIRENT_SZ := by omega
      rw [unlinkat_found_eq st uname i hsz hwf hf]
      refine ⟨fun _ => ⟨rfl, ?_⟩, fun hne => absurd rfl hne, ?_⟩
      · unfold DIRENT_SZ at *
        omega
      · dsimp only
        unfold DIRENT_SZ at *
        omega
  have hlnk : ((linkat oname nname st).1 = 0 →
      (linkat oname nname st).2.1.dir.size = st.dir.size + DIRENT_SZ) ∧
      ((linkat oname nname st).1 ≠ 0 → (linkat oname nname st).2.1 = st) ∧
      (linkat oname nname st).2.1.dir.size % DIRENT_SZ = 0 := by
    cases hf : find_inode_id oname st.dir with
    | none =>
      rw [linkat_not_found st oname nname hf]
      exact ⟨fun h0 => absurd h0 (by simp), fun _ => rfl, hsz⟩
    | some inode_id =>
      rw [linkat_found_eq st oname nname inode_id hf hgrow]
      refine ⟨fun _ => hgrowsz, fun hne => absurd rfl hne, ?_⟩
      dsimp only
      rw [hgrowsz]
      unfold DIRENT_SZ at *
      omega
  refine ⟨by decide, ?_, hlnk.1, hlnk.2.1, hlnk.2.2, hunl.1, hunl.2.1,
    hunl.2.2⟩
  intro r st2 evs heq
  unfold createFile at heq
  by_cases hex : (find_inode_id cname st.dir).isSome
  · rw [if_pos hex] at heq
    simp only [Option.some_inj, Prod.mk.injEq] at heq
    obtain ⟨hr, hst, -⟩ := heq
    subst hr
    subst hst
    refine ⟨?_, fun _ => rfl, hsz⟩
    rintro ⟨id, hid⟩
    cases hid
  · rw [if_neg hex] at heq
    cases halloc : allocInode st.inodeBitmap with
    | none => rw [halloc] at heq; cases heq
    | some p =>
      obtain ⟨newid, bm2⟩ := p
      rw [halloc] at heq
      dsimp only at heq
      rw [increaseSize_grow _ _ _ hgrow] at heq
      simp only [Option.some_inj, Prod.mk.injEq] at heq
      obtain ⟨hr, hst, -⟩ := heq
      subst hr
      subst hst
      refine ⟨fun _ => ?_, fun hc => absurd hc (by simp), ?_⟩
      · dsimp only
        exact hgrowsz
      · dsimp only
        rw [hgrowsz]
        unfold DIRENT_SZ at *
        omega

/-- C7 (witness): the invariant machinery at a concrete one-entry
directory: a failing `unlinkat` keeps the state, and the initialized root
has size 0. -/
theorem claimC7_witness :
    DiskInode.initializeDir.size % DIRENT_SZ = 0 ∧
    (unlinkat "z" ⟨⟨32, [⟨"a", 7⟩], [100]⟩, [true], 0⟩).2.1 =
      ⟨⟨32, [⟨"a", 7⟩], [100]⟩, [true], 0⟩ :=
  ⟨(claimC7_size_multiple_of_32 ⟨⟨32, [⟨"a", 7⟩], [100]⟩, [true], 0⟩
      "c" "o" "n" "z" (by decide) (by decide)).1,
    (claimC7_size_multiple_of_32 ⟨⟨32, [⟨"a", 7⟩], [100]⟩, [true], 0⟩
      "c" "o" "n" "z" (by decide) (by decide)).2.2.2.2.2.2.1 (by decide)⟩

end EasyFS
